import Mathlib

/-!
Verification of `secret-storage-lite`: a typed indexing layer over an
abstract byte-oriented key-value store, together with a persisted circular
queue built on top of it.

The embedding mirrors `src/map.rs` and `src/queue.rs`. The `Path` /
key-segment encoding layer (`path.rs`, `keys.rs`) is not part of the
provided sources, so its resolved-key construction and save/load/may_load
operations are modelled from the specification (length-prefixed namespace
and non-final segments, final segment raw; load distinguishes NotFound
from ParseError). Machine integers (`u32`, `u16`) are embedded as `Nat`
with explicit bounds and `% 2 ^ 32` / byte decompositions where the code's
fixed width matters.
-/

set_option autoImplicit false

namespace SecretStorage

/-- A byte is embedded as `Nat`; real stores only hold values `< 256`. -/
abbrev Bytes := List Nat

/-- The abstract host store: a partial map from byte keys to byte values,
mirroring the `cosmwasm_std::Storage` interface (`get`/`set`). -/
def Store := Bytes → Option Bytes

/-- Embeds `Storage::get`. -/
def Store.get (s : Store) (k : Bytes) : Option Bytes := s k

/-- Embeds `Storage::set`. -/
def Store.set (s : Store) (k : Bytes) (v : Bytes) : Store :=
  fun k2 => if k2 = k then some v else s k2

/-- A store that was never written to. -/
def emptyStore : Store := fun _ => none

/-- Error kinds surfaced by the typed layer (`cosmwasm_std::StdError` as
used here): a missing key on `load`, or bytes the codec cannot parse. -/
inductive StdErr where
  | notFound
  | parseErr
  deriving DecidableEq, Repr

/-- Embeds the `StdResult` of the Rust sources. -/
abbrev StdResult (α : Type) := Except StdErr α

/-- Big-endian 2-byte encoding of a length (`u16::to_be_bytes`), used as
the length prefix of non-final key segments. -/
def u16_be (n : Nat) : Bytes := [n / 256 % 256, n % 256]

/-- Big-endian 4-byte encoding (`u32::to_be_bytes`). -/
def u32_be (n : Nat) : Bytes :=
  [n / 16777216 % 256, n / 65536 % 256, n / 256 % 256, n % 256]

/-- Embeds `u32::from_be_bytes` on a 4-byte big-endian list. -/
def be_u32 (b : Bytes) : Nat := b.foldl (fun acc d => acc * 256 + d) 0

/-- Modelled from the spec: `encode_segments` of the missing `keys.rs` /
`path.rs` layer. Every segment except the last is emitted as a two-byte
big-endian length prefix followed by its raw bytes; the final segment is
emitted raw (spec section 4.1). -/
def encode_segments : List Bytes → Bytes
  | [] => []
  | [s] => s
  | s :: rest => u16_be s.length ++ s ++ encode_segments rest

/-- Modelled from the spec: the resolved byte key of `Path::new(namespace,
segments)` — the namespace is treated as the first, non-final segment, so
the key is `len16(namespace) ++ namespace ++ encode_segments segments`
(spec sections 4.2 and 6). `Map::key` in `map.rs` forwards here. -/
def pathKey (ns : Bytes) (segs : List Bytes) : Bytes :=
  u16_be ns.length ++ ns ++ encode_segments segs

/-- Modelled from the spec: `Path::save` — serialize the value with the
codec `enc` and write it at the resolved key. `Map::save` forwards here. -/
def mapSave {T : Type} (enc : T → Bytes) (s : Store) (ns : Bytes)
    (segs : List Bytes) (v : T) : Store :=
  s.set (pathKey ns segs) (enc v)

/-- Modelled from the spec: `Path::load` — absent key is `NotFound`,
present but unparseable bytes are `ParseError` (spec section 4.2). -/
def mapLoad {T : Type} (dec : Bytes → Option T) (s : Store) (ns : Bytes)
    (segs : List Bytes) : StdResult T :=
  match s.get (pathKey ns segs) with
  | none => .error .notFound
  | some bytes =>
    match dec bytes with
    | none => .error .parseErr
    | some v => .ok v

/-- Modelled from the spec: `Path::may_load` — absent key yields
`Ok(None)`, present but unparseable bytes still fail with `ParseError`. -/
def mayLoad {T : Type} (dec : Bytes → Option T) (s : Store) (k : Bytes) :
    StdResult (Option T) :=
  match s.get k with
  | none => .ok none
  | some bytes =>
    match dec bytes with
    | none => .error .parseErr
    | some v => .ok (some v)

/-! ## The queue (`src/queue.rs`) -/

/-- ASCII bytes of the suffix `"_head"` (`Queue::HEAD`). -/
def HEAD : Bytes := [95, 104, 101, 97, 100]

/-- ASCII bytes of the suffix `"_tail"` (`Queue::TAIL`). -/
def TAIL : Bytes := [95, 116, 97, 105, 108]

/-- The constant `u32::MAX`. -/
def U32MAX : Nat := 4294967295

/-- The `Queue` struct: a namespace (held via its backing `Map`) and the
internal `capacity` field, which `with_capacity` sets to the requested
capacity plus one. -/
structure Queue where
  nspace : Bytes
  capacity : Nat
  deriving DecidableEq, Repr

/-- Embeds `Queue::with_capacity`: panics (here `none`) when the requested
capacity is `0` or `u32::MAX`; otherwise stores `capacity + 1` in the
`capacity` field. Construction takes no store argument: it performs no
store access. -/
def Queue.with_capacity (ns : Bytes) (capacity : Nat) : Option Queue :=
  if capacity = 0 then none
  else if capacity = U32MAX then none
  else some ⟨ns, capacity + 1⟩

/-- Embeds `Queue::max_capacity`. -/
def Queue.max_capacity (q : Queue) : Nat := q.capacity - 1

/-- Embeds `load_u32` of `queue.rs`: read the bytes at `k`; if absent, or not
exactly 4 bytes long, default to `0`; otherwise `u32::from_be_bytes`. -/
def load_u32 (s : Store) (k : Bytes) : Nat :=
  match s.get k with
  | none => 0
  | some bytes => if bytes.length = 4 then be_u32 bytes else 0

/-- Embeds `save_u32` of `queue.rs`. -/
def save_u32 (s : Store) (k : Bytes) (u : Nat) : Store := s.set k (u32_be u)

/-- The head-counter key: `Queue::with_namespace_suffix` concatenates the
raw namespace and the suffix with no length prefix. -/
def Queue.headKey (q : Queue) : Bytes := q.nspace ++ HEAD

/-- The tail-counter key, `namespace ++ "_tail"` raw. -/
def Queue.tailKey (q : Queue) : Bytes := q.nspace ++ TAIL

/-- The backing `Map<u32, T>` key of slot `i`: the queue element is saved
through the generic map machinery, so the slot index is a single (final)
4-byte big-endian segment after the length-prefixed namespace. -/
def Queue.slotKey (q : Queue) (i : Nat) : Bytes := pathKey q.nspace [u32_be i]

/-- Embeds `Queue::head`: load the head counter. -/
def Queue.headPtr (q : Queue) (s : Store) : Nat := load_u32 s q.headKey

/-- Embeds `Queue::tail`: load the tail counter. -/
def Queue.tailPtr (q : Queue) (s : Store) : Nat := load_u32 s q.tailKey

/-- Embeds `Queue::inc_head`: store `(head + 1) % capacity` at the head key. -/
def Queue.inc_head (q : Queue) (s : Store) (head : Nat) : Store :=
  save_u32 s q.headKey ((head + 1) % q.capacity)

/-- Embeds `Queue::inc_tail`: store `(tail + 1) % capacity` at the tail key. -/
def Queue.inc_tail (q : Queue) (s : Store) (tail : Nat) : Store :=
  save_u32 s q.tailKey ((tail + 1) % q.capacity)

/-- Embeds `Queue::determine_len`: `tail.abs_diff(head)` when `tail >= head`
(embedded as `Nat.dist`), else `capacity - head + tail`. -/
def Queue.determine_len (q : Queue) (head tail : Nat) : Nat :=
  if head ≤ tail then Nat.dist tail head else q.capacity - head + tail

/-- Embeds `Queue::determine_is_full`. -/
def Queue.determine_is_full (q : Queue) (head tail : Nat) : Bool :=
  decide (q.determine_len head tail = q.max_capacity)

/-- Embeds `Queue::len`. -/
def Queue.len (q : Queue) (s : Store) : Nat :=
  q.determine_len (q.headPtr s) (q.tailPtr s)

/-- Embeds `Queue::free_capacity`. -/
def Queue.free_capacity (q : Queue) (s : Store) : Nat :=
  q.max_capacity - q.len s

/-- Embeds `Queue::is_full`. -/
def Queue.is_full (q : Queue) (s : Store) : Bool :=
  q.determine_is_full (q.headPtr s) (q.tailPtr s)

/-- Embeds `Queue::push_back`: read tail and head; if full, report `false`
without writing; otherwise save the element at slot `tail` through the
backing map, advance the tail counter, and report `true`. Serialization
by `enc` is total here, so the `StdResult` wrapper of the Rust signature
carries no failure and is dropped. -/
def Queue.push_back {T : Type} (enc : T → Bytes) (q : Queue) (s : Store)
    (t : T) : Store × Bool :=
  let tail := q.tailPtr s
  let head := q.headPtr s
  if q.determine_is_full head tail then (s, false)
  else
    let s1 := mapSave enc s q.nspace [u32_be tail] t
    (q.inc_tail s1 tail, true)

/-- Embeds `Queue::pop_front`: read tail and head; if equal, report nothing
without writing; otherwise `may_load` slot `head` (propagating a
`ParseError` before any write), advance the head counter, and return the
loaded value. -/
def Queue.pop_front {T : Type} (dec : Bytes → Option T) (q : Queue)
    (s : Store) : StdResult (Store × Option T) :=
  let tail := q.tailPtr s
  let head := q.headPtr s
  if tail = head then .ok (s, none)
  else
    match mayLoad dec s (q.slotKey head) with
    | .error e => .error e
    | .ok popped => .ok (q.inc_head s head, popped)

/-! ## Reference bounded FIFO (the model the proptest in `queue.rs` checks
against: a `VecDeque` that refuses pushes at length `max`) -/

/-- One queue operation. -/
inductive Op (T : Type) where
  | push (v : T)
  | pop
  deriving DecidableEq, Repr

/-- One queue operation's visible result. -/
inductive Out (T : Type) where
  | pushed (b : Bool)
  | popped (o : Option T)
  deriving DecidableEq, Repr

/-- What is observed after each step: the operation's result together
with the length, free capacity and fullness reported afterwards. -/
abbrev Obs (T : Type) := Out T × Nat × Nat × Bool

/-- One step of the reference bounded FIFO of size `N`: a push is
accepted exactly when fewer than `N` elements are held; a pop removes
the oldest element. -/
def modelStep {T : Type} (N : Nat) (l : List T) : Op T → List T × Out T
  | .push v => if l.length = N then (l, .pushed false) else (l ++ [v], .pushed true)
  | .pop =>
    match l with
    | [] => ([], .popped none)
    | v :: rest => (rest, .popped (some v))

/-- Run the reference FIFO over a list of operations, recording each
step's result and the length / free space / fullness after it. -/
def modelTrace {T : Type} (N : Nat) (l : List T) : List (Op T) → List (Obs T)
  | [] => []
  | op :: ops =>
    let p := modelStep N l op
    (p.2, p.1.length, N - p.1.length, decide (p.1.length = N)) ::
      modelTrace N p.1 ops

/-- One step of the store-backed queue. -/
def implStep {T : Type} (enc : T → Bytes) (dec : Bytes → Option T)
    (q : Queue) (s : Store) : Op T → StdResult (Store × Out T)
  | .push v =>
    let p := q.push_back enc s v
    .ok (p.1, .pushed p.2)
  | .pop =>
    match q.pop_front dec s with
    | .error e => .error e
    | .ok p => .ok (p.1, .popped p.2)

/-- Run the store-backed queue over a list of operations, recording each
step's result and `len` / `free_capacity` / `is_full` after it. -/
def implTrace {T : Type} (enc : T → Bytes) (dec : Bytes → Option T)
    (q : Queue) (s : Store) : List (Op T) → StdResult (List (Obs T))
  | [] => .ok []
  | op :: ops =>
    match implStep enc dec q s op with
    | .error e => .error e
    | .ok p =>
      match implTrace enc dec q p.1 ops with
      | .error e => .error e
      | .ok rest =>
        .ok ((p.2, q.len p.1, q.free_capacity p.1, q.is_full p.1) :: rest)

/-- A concrete codec for `Nat` values, used to instantiate the generic
theorems on concrete runs: a value `n` is serialized as `n` zero bytes. -/
def enc0 : Nat → Bytes := fun n => List.replicate n 0

/-- The matching deserializer of [enc0]: the length of the byte string. -/
def dec0 : Bytes → Option Nat := fun l => some l.length

/-- The concrete scenario of the specification: six pushes of `0..5` into
a capacity-5 queue followed by six pops. -/
def scenarioOps : List (Op Nat) :=
  [.push 0, .push 1, .push 2, .push 3, .push 4, .push 5,
   .pop, .pop, .pop, .pop, .pop, .pop]

/-- The refinement invariant: the store-backed queue over `q` with
requested capacity `N` (internal `capacity = N + 1`) represents the list
`l` — both counters in range, the modular head-to-tail distance equal to
`l.length`, and slot `(head + i) % capacity` holding the encoding of the
`i`-th element. -/
structure Inv {T : Type} (enc : T → Bytes) (q : Queue) (N : Nat) (s : Store)
    (l : List T) : Prop where
  cap_eq : q.capacity = N + 1
  cap_le : q.capacity ≤ 4294967295
  head_lt : q.headPtr s < q.capacity
  tail_lt : q.tailPtr s < q.capacity
  len_eq : q.determine_len (q.headPtr s) (q.tailPtr s) = l.length
  slots : ∀ i, i < l.length →
    s.get (q.slotKey ((q.headPtr s + i) % q.capacity)) = Option.map enc l[i]?

/-! ## Store lemmas -/

theorem Store.get_set_self (s : Store) (k v : Bytes) :
    (s.set k v).get k = some v := by
  simp [Store.get, Store.set]

theorem Store.get_set_ne (s : Store) {k k2 : Bytes} (v : Bytes) (h : k2 ≠ k) :
    (s.set k v).get k2 = s.get k2 := by
  simp [Store.get, Store.set, h]

/-! ## Key disjointness -/

theorem u16_be_length (n : Nat) : (u16_be n).length = 2 := rfl

theorem u32_be_length (n : Nat) : (u32_be n).length = 4 := rfl

theorem u32_be_inj {i j : Nat} (hi : i < 4294967296) (hj : j < 4294967296)
    (h : u32_be i = u32_be j) : i = j := by
  simp only [u32_be, List.cons.injEq, and_true] at h
  omega

theorem be_u32_u32_be (n : Nat) (h : n < 4294967296) : be_u32 (u32_be n) = n := by
  simp only [be_u32, u32_be, List.foldl]
  omega

theorem Queue.slotKey_length (q : Queue) (i : Nat) :
    (q.slotKey i).length = q.nspace.length + 6 := by
  simp [Queue.slotKey, pathKey, encode_segments, u16_be, u32_be]

theorem Queue.headKey_length (q : Queue) :
    q.headKey.length = q.nspace.length + 5 := by
  simp [Queue.headKey, HEAD]

theorem Queue.tailKey_length (q : Queue) :
    q.tailKey.length = q.nspace.length + 5 := by
  simp [Queue.tailKey, TAIL]

theorem Queue.headKey_ne_tailKey (q : Queue) : q.headKey ≠ q.tailKey := by
  intro h
  have h2 : HEAD = TAIL := List.append_cancel_left h
  exact absurd h2 (by decide)

theorem Queue.slotKey_ne_headKey (q : Queue) (i : Nat) :
    q.slotKey i ≠ q.headKey := by
  intro h
  have h2 := congrArg List.length h
  rw [q.slotKey_length, q.headKey_length] at h2
  omega

theorem Queue.slotKey_ne_tailKey (q : Queue) (i : Nat) :
    q.slotKey i ≠ q.tailKey := by
  intro h
  have h2 := congrArg List.length h
  rw [q.slotKey_length, q.tailKey_length] at h2
  omega

theorem Queue.slotKey_inj (q : Queue) {i j : Nat} (hi : i < 4294967296)
    (hj : j < 4294967296) (h : q.slotKey i = q.slotKey j) : i = j := by
  simp only [Queue.slotKey, pathKey, encode_segments, List.append_assoc] at h
  have h2 : u32_be i = u32_be j :=
    List.append_cancel_left (List.append_cancel_left h)
  exact u32_be_inj hi hj h2

/-! ## Counter reads after writes -/

theorem load_u32_save (s : Store) (k : Bytes) (v : Nat) (h : v < 4294967296) :
    load_u32 (save_u32 s k v) k = v := by
  simp [load_u32, save_u32, Store.get_set_self, u32_be_length, be_u32_u32_be, h]

theorem load_u32_set_ne (s : Store) {k k2 : Bytes} (b : Bytes) (h : k2 ≠ k) :
    load_u32 (s.set k b) k2 = load_u32 s k2 := by
  simp [load_u32, Store.get_set_ne s b h]

/-! ## Modular arithmetic of the counters -/

theorem determine_len_eq (q : Queue) (head tail : Nat) :
    q.determine_len head tail =
      if head ≤ tail then tail - head else q.capacity - head + tail := by
  unfold Queue.determine_len
  split_ifs with h
  · simp only [Nat.dist]
    omega
  · rfl

theorem determine_len_lt (q : Queue) {head tail : Nat}
    (hh : head < q.capacity) (ht : tail < q.capacity) :
    q.determine_len head tail < q.capacity := by
  rw [determine_len_eq]
  split_ifs with h <;> omega

theorem determine_len_zero (q : Queue) {head tail : Nat}
    (hh : head < q.capacity) (_ht : tail < q.capacity) :
    q.determine_len head tail = 0 ↔ tail = head := by
  rw [determine_len_eq]
  split_ifs with h <;> omega

theorem tail_of_len (q : Queue) {head tail L : Nat} (hh : head < q.capacity)
    (ht : tail < q.capacity) (hl : q.determine_len head tail = L) :
    tail = (head + L) % q.capacity := by
  rw [determine_len_eq] at hl
  rcases le_or_lt head tail with h | h
  · rw [if_pos h] at hl
    have h2 : head + L = tail := by omega
    rw [h2, Nat.mod_eq_of_lt ht]
  · rw [if_neg (by omega)] at hl
    have h2 : head + L = q.capacity + tail := by omega
    rw [h2, Nat.add_mod_left, Nat.mod_eq_of_lt ht]

theorem determine_len_inc_tail (q : Queue) {head tail L : Nat}
    (hh : head < q.capacity) (ht : tail < q.capacity)
    (hl : q.determine_len head tail = L) (hL : L < q.capacity - 1) :
    q.determine_len head ((tail + 1) % q.capacity) = L + 1 := by
  rw [determine_len_eq] at hl
  rcases Nat.lt_or_ge (tail + 1) q.capacity with h | h
  · rw [Nat.mod_eq_of_lt h, determine_len_eq]
    split_ifs at hl ⊢ <;> omega
  · have h2 : tail + 1 = q.capacity := by omega
    rw [h2, Nat.mod_self, determine_len_eq]
    split_ifs at hl ⊢ <;> omega

theorem determine_len_inc_head (q : Queue) {head tail L : Nat}
    (hh : head < q.capacity) (ht : tail < q.capacity)
    (hl : q.determine_len head tail = L + 1) :
    q.determine_len ((head + 1) % q.capacity) tail = L := by
  rw [determine_len_eq] at hl
  rcases Nat.lt_or_ge (head + 1) q.capacity with h | h
  · rw [Nat.mod_eq_of_lt h, determine_len_eq]
    split_ifs at hl ⊢ <;> omega
  · have h2 : head + 1 = q.capacity := by omega
    rw [h2, Nat.mod_self, determine_len_eq]
    split_ifs at hl ⊢ <;> omega

theorem mod_shift_ne {cap head i j : Nat} (hi : i < cap) (hj : j < cap)
    (hne : i ≠ j) : (head + i) % cap ≠ (head + j) % cap := by
  intro h
  have h2 : Nat.ModEq cap i j := Nat.ModEq.add_left_cancel' head h
  have h3 : i % cap = j % cap := h2
  rw [Nat.mod_eq_of_lt hi, Nat.mod_eq_of_lt hj] at h3
  exact hne h3

/-! ## Simulation invariant between the persisted queue and the FIFO -/

section Simulation

variable {T : Type} (enc : T → Bytes) (dec : Bytes → Option T)

theorem Inv.len_le {q : Queue} {N : Nat} {s : Store} {l : List T}
    (inv : Inv enc q N s l) : l.length ≤ N := by
  have h := determine_len_lt q inv.head_lt inv.tail_lt
  rw [inv.len_eq, inv.cap_eq] at h
  omega

theorem Inv.obs {q : Queue} {N : Nat} {s : Store} {l : List T}
    (inv : Inv enc q N s l) :
    q.len s = l.length ∧ q.free_capacity s = N - l.length ∧
      q.is_full s = decide (l.length = N) := by
  have h1 : q.len s = l.length := inv.len_eq
  refine ⟨h1, ?_, ?_⟩
  · simp [Queue.free_capacity, h1, Queue.max_capacity, inv.cap_eq]
  · simp [Queue.is_full, Queue.determine_is_full, Queue.len, inv.len_eq,
      Queue.max_capacity, inv.cap_eq]

theorem push_sim_full {q : Queue} {N : Nat} {s : Store} {l : List T}
    (inv : Inv enc q N s l) (v : T) (h : l.length = N) :
    q.push_back enc s v = (s, false) := by
  have hfull : q.determine_is_full (q.headPtr s) (q.tailPtr s) = true := by
    simp [Queue.determine_is_full, inv.len_eq, h, Queue.max_capacity,
      inv.cap_eq]
  simp [Queue.push_back, hfull]

theorem push_sim_ok {q : Queue} {N : Nat} {s : Store} {l : List T}
    (inv : Inv enc q N s l) (v : T) (h : l.length ≠ N) :
    q.push_back enc s v =
      (q.inc_tail (mapSave enc s q.nspace [u32_be (q.tailPtr s)] v)
        (q.tailPtr s), true) ∧
      Inv enc q N
        (q.inc_tail (mapSave enc s q.nspace [u32_be (q.tailPtr s)] v)
          (q.tailPtr s)) (l ++ [v]) := by
  have hcap : 0 < q.capacity := by rw [inv.cap_eq]; omega
  have hlen_le := Inv.len_le enc inv
  have hnotfull : q.determine_is_full (q.headPtr s) (q.tailPtr s) = false := by
    simp only [Queue.determine_is_full, inv.len_eq, Queue.max_capacity,
      inv.cap_eq, Nat.add_sub_cancel, decide_eq_false_iff_not]
    omega
  have heq : q.push_back enc s v =
      (q.inc_tail (mapSave enc s q.nspace [u32_be (q.tailPtr s)] v)
        (q.tailPtr s), true) := by
    simp [Queue.push_back, hnotfull]
  refine ⟨heq, ?_⟩
  have hhead2 :
      q.headPtr (q.inc_tail (mapSave enc s q.nspace [u32_be (q.tailPtr s)] v)
        (q.tailPtr s)) = q.headPtr s := by
    show load_u32
      ((s.set (q.slotKey (q.tailPtr s)) (enc v)).set q.tailKey
        (u32_be ((q.tailPtr s + 1) % q.capacity))) q.headKey = load_u32 s q.headKey
    rw [load_u32_set_ne _ _ q.headKey_ne_tailKey,
      load_u32_set_ne _ _ (Ne.symm (q.slotKey_ne_headKey (q.tailPtr s)))]
  have htail2 :
      q.tailPtr (q.inc_tail (mapSave enc s q.nspace [u32_be (q.tailPtr s)] v)
        (q.tailPtr s)) = (q.tailPtr s + 1) % q.capacity := by
    show load_u32
      (save_u32 (s.set (q.slotKey (q.tailPtr s)) (enc v)) q.tailKey
        ((q.tailPtr s + 1) % q.capacity)) q.tailKey = (q.tailPtr s + 1) % q.capacity
    have h1 := Nat.mod_lt (q.tailPtr s + 1) hcap
    have h2 := inv.cap_le
    exact load_u32_save _ _ _ (by omega)
  have htl_eq : q.tailPtr s = (q.headPtr s + l.length) % q.capacity :=
    tail_of_len q inv.head_lt inv.tail_lt inv.len_eq
  refine ⟨inv.cap_eq, inv.cap_le, ?_, ?_, ?_, ?_⟩
  · rw [hhead2]; exact inv.head_lt
  · rw [htail2]; exact Nat.mod_lt _ hcap
  · rw [hhead2, htail2]
    have := determine_len_inc_tail q inv.head_lt inv.tail_lt inv.len_eq
      (by rw [inv.cap_eq]; omega)
    simpa using this
  · intro i hi
    rw [hhead2]
    simp only [List.length_append, List.length_cons, List.length_nil] at hi
    rcases Nat.lt_or_ge i l.length with hil | hil
    · have hk_ne_tl : (q.headPtr s + i) % q.capacity ≠ q.tailPtr s := by
        have hce := inv.cap_eq
        rw [htl_eq]
        exact mod_shift_ne (by omega) (by omega) (by omega)
      have hb1 : (q.headPtr s + i) % q.capacity < 4294967296 := by
        have h1 := Nat.mod_lt (q.headPtr s + i) hcap
        have h2 := inv.cap_le
        omega
      have hb2 : q.tailPtr s < 4294967296 := by
        have h1 := inv.tail_lt
        have h2 := inv.cap_le
        omega
      have hget :
          ((s.set (q.slotKey (q.tailPtr s)) (enc v)).set q.tailKey
            (u32_be ((q.tailPtr s + 1) % q.capacity))).get
            (q.slotKey ((q.headPtr s + i) % q.capacity)) =
          s.get (q.slotKey ((q.headPtr s + i) % q.capacity)) := by
        rw [Store.get_set_ne _ _ (q.slotKey_ne_tailKey _)]
        rw [Store.get_set_ne]
        intro hkeq
        exact hk_ne_tl (q.slotKey_inj hb1 hb2 hkeq)
      rw [show (q.inc_tail (mapSave enc s q.nspace [u32_be (q.tailPtr s)] v)
          (q.tailPtr s)).get (q.slotKey ((q.headPtr s + i) % q.capacity)) =
        ((s.set (q.slotKey (q.tailPtr s)) (enc v)).set q.tailKey
          (u32_be ((q.tailPtr s + 1) % q.capacity))).get
          (q.slotKey ((q.headPtr s + i) % q.capacity)) from rfl]
      rw [hget, inv.slots i hil, List.getElem?_append_left hil]
    · have hi_eq : i = l.length := by omega
      subst hi_eq
      rw [← htl_eq]
      have hgot :
          ((s.set (q.slotKey (q.tailPtr s)) (enc v)).set q.tailKey
            (u32_be ((q.tailPtr s + 1) % q.capacity))).get
            (q.slotKey (q.tailPtr s)) = some (enc v) := by
        rw [Store.get_set_ne _ _ (q.slotKey_ne_tailKey _), Store.get_set_self]
      rw [show (q.inc_tail (mapSave enc s q.nspace [u32_be (q.tailPtr s)] v)
          (q.tailPtr s)).get (q.slotKey (q.tailPtr s)) =
        ((s.set (q.slotKey (q.tailPtr s)) (enc v)).set q.tailKey
          (u32_be ((q.tailPtr s + 1) % q.capacity))).get
          (q.slotKey (q.tailPtr s)) from rfl]
      rw [hgot, List.getElem?_concat_length]
      rfl

theorem pop_sim_empty {q : Queue} {N : Nat} {s : Store}
    (inv : Inv enc q N s ([] : List T)) :
    q.pop_front dec s = .ok (s, none) := by
  have h0 : q.determine_len (q.headPtr s) (q.tailPtr s) = 0 := by
    simpa using inv.len_eq
  have h : q.tailPtr s = q.headPtr s :=
    (determine_len_zero q inv.head_lt inv.tail_lt).mp h0
  simp [Queue.pop_front, h]

theorem pop_sim_cons {q : Queue} {N : Nat} {s : Store} {v : T} {rest : List T}
    (hrt : ∀ x, dec (enc x) = some x) (inv : Inv enc q N s (v :: rest)) :
    q.pop_front dec s = .ok (q.inc_head s (q.headPtr s), some v) ∧
      Inv enc q N (q.inc_head s (q.headPtr s)) rest := by
  have hcap : 0 < q.capacity := by rw [inv.cap_eq]; omega
  have hne : ¬ q.tailPtr s = q.headPtr s := by
    intro h
    have h0 := (determine_len_zero q inv.head_lt inv.tail_lt).mpr h
    rw [inv.len_eq] at h0
    simp at h0
  have hslot0 : s.get (q.slotKey (q.headPtr s)) = some (enc v) := by
    have h1 := inv.slots 0 (by simp)
    simpa [Nat.mod_eq_of_lt inv.head_lt] using h1
  have hml : mayLoad dec s (q.slotKey (q.headPtr s)) = .ok (some v) := by
    simp [mayLoad, hslot0, hrt v]
  have heq : q.pop_front dec s = .ok (q.inc_head s (q.headPtr s), some v) := by
    simp [Queue.pop_front, hne, hml]
  refine ⟨heq, ?_⟩
  have hhead2 : q.headPtr (q.inc_head s (q.headPtr s)) =
      (q.headPtr s + 1) % q.capacity := by
    show load_u32 (save_u32 s q.headKey ((q.headPtr s + 1) % q.capacity))
      q.headKey = (q.headPtr s + 1) % q.capacity
    have h1 := Nat.mod_lt (q.headPtr s + 1) hcap
    have h2 := inv.cap_le
    exact load_u32_save _ _ _ (by omega)
  have htail2 : q.tailPtr (q.inc_head s (q.headPtr s)) = q.tailPtr s := by
    show load_u32 (s.set q.headKey (u32_be ((q.headPtr s + 1) % q.capacity)))
      q.tailKey = load_u32 s q.tailKey
    exact load_u32_set_ne _ _ (Ne.symm q.headKey_ne_tailKey)
  refine ⟨inv.cap_eq, inv.cap_le, ?_, ?_, ?_, ?_⟩
  · rw [hhead2]; exact Nat.mod_lt _ hcap
  · rw [htail2]; exact inv.tail_lt
  · rw [hhead2, htail2]
    have hl := inv.len_eq
    simp only [List.length_cons] at hl
    exact determine_len_inc_head q inv.head_lt inv.tail_lt hl
  · intro i hi
    rw [hhead2]
    have hk : ((q.headPtr s + 1) % q.capacity + i) % q.capacity
        = (q.headPtr s + (i + 1)) % q.capacity := by
      rw [Nat.mod_add_mod]
      congr 1
      omega
    rw [hk]
    have hget : (q.inc_head s (q.headPtr s)).get
        (q.slotKey ((q.headPtr s + (i + 1)) % q.capacity)) =
        s.get (q.slotKey ((q.headPtr s + (i + 1)) % q.capacity)) := by
      show (s.set q.headKey (u32_be ((q.headPtr s + 1) % q.capacity))).get
        (q.slotKey ((q.headPtr s + (i + 1)) % q.capacity)) = _
      exact Store.get_set_ne _ _ (q.slotKey_ne_headKey _)
    rw [hget, inv.slots (i + 1) (by simp only [List.length_cons]; omega)]
    simp

/-- Step-by-step simulation: from any related pair of states, the
store-backed queue's trace of results and observations equals the
reference FIFO's. -/
theorem trace_sim {q : Queue} {N : Nat} (hrt : ∀ x, dec (enc x) = some x) :
    ∀ (ops : List (Op T)) (s : Store) (l : List T), Inv enc q N s l →
      implTrace enc dec q s ops = .ok (modelTrace N l ops) := by
  intro ops
  induction ops with
  | nil => intro s l _; rfl
  | cons op ops ih =>
    intro s l inv
    cases op with
    | push v =>
      by_cases h : l.length = N
      · have hp := push_sim_full enc inv v h
        have hobs := Inv.obs enc inv
        have hih := ih s l inv
        simp only [implTrace, implStep, hp, modelTrace, modelStep, if_pos h,
          hih]
        simp [hobs.1, hobs.2.1, hobs.2.2, h]
      · have hp := push_sim_ok enc inv v h
        have hobs := Inv.obs enc hp.2
        have hih := ih _ _ hp.2
        simp only [implTrace, implStep, modelTrace, modelStep, if_neg h,
          hp.1, hih]
        simp [hobs.1, hobs.2.1, hobs.2.2]
    | pop =>
      cases l with
      | nil =>
        have hp := pop_sim_empty enc dec inv
        have hobs := Inv.obs enc inv
        have hih := ih s [] inv
        simp only [implTrace, implStep, hp, modelTrace, modelStep, hih]
        simp [hobs.1, hobs.2.1, hobs.2.2]
      | cons v rest =>
        have hp := pop_sim_cons enc dec hrt inv
        have hobs := Inv.obs enc hp.2
        have hih := ih _ _ hp.2
        simp only [implTrace, implStep, hp.1, modelTrace, modelStep, hih]
        simp [hobs.1, hobs.2.1, hobs.2.2]

/-- A freshly constructed queue over a never-written store represents the
empty FIFO. -/
theorem inv_init {ns : Bytes} {N : Nat} {q : Queue} (h1 : 1 ≤ N)
    (h2 : N ≤ 4294967294) (hq : Queue.with_capacity ns N = some q) :
    Inv enc q N emptyStore ([] : List T) := by
  have hq2 : q = ⟨ns, N + 1⟩ := by
    unfold Queue.with_capacity at hq
    rw [if_neg (by omega), if_neg (by unfold U32MAX; omega)] at hq
    exact (Option.some.injEq _ _).mp hq.symm
  subst hq2
  have hh : Queue.headPtr ⟨ns, N + 1⟩ emptyStore = 0 := rfl
  have ht : Queue.tailPtr ⟨ns, N + 1⟩ emptyStore = 0 := rfl
  refine ⟨rfl, by show N + 1 ≤ 4294967295; omega, ?_, ?_, ?_, ?_⟩
  · rw [hh]; show 0 < N + 1; omega
  · rw [ht]; show 0 < N + 1; omega
  · rw [hh, ht]
    simp [Queue.determine_len]
  · intro i hi
    simp at hi

end Simulation

/-- The concrete codec [enc0]/[dec0] round-trips. -/
theorem enc0_dec0 (x : Nat) : dec0 (enc0 x) = some x := by
  simp [enc0, dec0]

/-! ## Claim theorems -/

/-- C1: for every capacity `N` with `1 ≤ N ≤ 2^32 - 2` and every finite
sequence of push/pop operations run from an initially empty store, the
queue built by `with_capacity` agrees step by step with a reference
bounded FIFO of size `N`: each `push_back` result, each `pop_front`
result, and the `len`/`free_capacity`/`is_full` observations after every
step coincide (assuming the pluggable codec round-trips). -/
theorem claim_C1_queue_refines_fifo {T : Type} (enc : T → Bytes)
    (dec : Bytes → Option T) (hrt : ∀ x, dec (enc x) = some x)
    (ns : Bytes) (N : Nat) (h1 : 1 ≤ N) (h2 : N ≤ 4294967294)
    (q : Queue) (hq : Queue.with_capacity ns N = some q)
    (ops : List (Op T)) :
    implTrace enc dec q emptyStore ops = .ok (modelTrace N ([] : List T) ops) :=
  trace_sim enc dec hrt ops emptyStore [] (inv_init enc h1 h2 hq)

/-- Witness for C1: the specification's concrete scenario — capacity 5,
pushes of `0..5` (the sixth refused), six pops returning `0,1,2,3,4` then
nothing — run through the theorem at a concrete codec. -/
theorem claim_C1_witness :
    (∀ x : Nat, dec0 (enc0 x) = some x) ∧ 1 ≤ 5 ∧ 5 ≤ 4294967294 ∧
      Queue.with_capacity [] 5 = some ⟨[], 6⟩ ∧
      implTrace enc0 dec0 ⟨[], 6⟩ emptyStore scenarioOps =
        .ok (modelTrace 5 ([] : List Nat) scenarioOps) :=
  ⟨fun x => by simp [enc0, dec0], by omega, by omega, rfl,
    claim_C1_queue_refines_fifo enc0 dec0 (fun x => by simp [enc0, dec0])
      [] 5 (by omega) (by omega) ⟨[], 6⟩ rfl scenarioOps⟩

/-- C8: `len()` is the forward modular distance from head to tail —
`tail - head` when `tail ≥ head`, else `capacity - head + tail` — and
`free_capacity()` is `max_capacity() - len()`. -/
theorem claim_C8_len_formula (q : Queue) (s : Store) :
    q.len s = (if q.headPtr s ≤ q.tailPtr s then q.tailPtr s - q.headPtr s
      else q.capacity - q.headPtr s + q.tailPtr s) ∧
      q.free_capacity s = q.max_capacity - q.len s :=
  ⟨determine_len_eq q _ _, rfl⟩

/-- C9: over the `u32` domain, construction fails exactly for requested
capacity `0` or `u32::MAX`; every other capacity constructs successfully.
The embedded `with_capacity` takes no store argument, mirroring the
`const fn` of the source, which performs no store access. -/
theorem claim_C9_construction (ns : Bytes) (c : Nat) (_hc : c < 4294967296) :
    (Queue.with_capacity ns c).isNone ↔ (c = 0 ∨ c = 4294967295) := by
  unfold Queue.with_capacity U32MAX
  split_ifs with h1 h2
  · simp [h1]
  · simp [h2]
  · simp [h1, h2]

/-- Witness for C9, applied at the boundary capacities `0`, `u32::MAX`
and the valid capacity `5`. -/
theorem claim_C9_witness :
    (0 : Nat) < 4294967296 ∧
      ((Queue.with_capacity [] 0).isNone ↔ (0 = 0 ∨ 0 = 4294967295)) ∧
      ((Queue.with_capacity [] 4294967295).isNone ↔
        (4294967295 = 0 ∨ 4294967295 = 4294967295)) ∧
      ((Queue.with_capacity [] 5).isNone ↔ (5 = 0 ∨ 5 = 4294967295)) :=
  ⟨by omega, claim_C9_construction [] 0 (by omega),
    claim_C9_construction [] 4294967295 (by omega),
    claim_C9_construction [] 5 (by omega)⟩

/-- C3 counterexample: as stated the claim is false — for requested
capacity `5`, `max_capacity()` returns `5`, not `5 - 1 = 4`: the
constructor stores `capacity = 5 + 1` internally and `max_capacity`
returns that internal field minus one, i.e. the requested capacity. -/
theorem claim_C3_counterexample :
    (Queue.with_capacity [] 5).map Queue.max_capacity = some 5 ∧
      (5 : Nat) ≠ 5 - 1 := by
  constructor
  · rfl
  · decide

/-- C3 amended: for every queue built by `with_capacity(ns, c)` with
valid `c`, `max_capacity()` returns `c` itself (the internal slot count
is `c + 1`, one slot kept structurally unusable as the full/empty
sentinel), and `is_full()` is true exactly when `len()` equals
`max_capacity()`. -/
theorem claim_C3_amended (ns : Bytes) (c : Nat) (q : Queue)
    (h1 : 1 ≤ c) (h2 : c ≤ 4294967294)
    (hq : Queue.with_capacity ns c = some q) :
    q.max_capacity = c ∧
      ∀ s : Store, q.is_full s = decide (q.len s = q.max_capacity) := by
  have hq2 : q = ⟨ns, c + 1⟩ := by
    unfold Queue.with_capacity at hq
    rw [if_neg (by omega), if_neg (by unfold U32MAX; omega)] at hq
    exact (Option.some.injEq _ _).mp hq.symm
  subst hq2
  refine ⟨?_, fun s => rfl⟩
  show c + 1 - 1 = c
  omega

/-- Witness for C3's amended claim at requested capacity `5`. -/
theorem claim_C3_amended_witness :
    1 ≤ 5 ∧ 5 ≤ 4294967294 ∧ Queue.with_capacity [] 5 = some ⟨[], 6⟩ ∧
      (Queue.max_capacity ⟨[], 6⟩ = 5 ∧
        ∀ s : Store, Queue.is_full ⟨[], 6⟩ s =
          decide (Queue.len ⟨[], 6⟩ s = Queue.max_capacity ⟨[], 6⟩)) :=
  ⟨by omega, by omega, rfl,
    claim_C3_amended [] 5 ⟨[], 6⟩ (by omega) (by omega) rfl⟩

/-- C2: the composite-key encoding is injective on pair segment values —
for tuples `(a, b) ≠ (c, d)` (with segment lengths fitting the 16-bit
length prefix, which the encoder requires), the resolved byte keys
differ, and consequently a save under `(a, b)` leaves the bytes readable
under `(c, d)` untouched, so a value saved under one tuple is never
loadable under the other. -/
theorem claim_C2_composite_key_injective (ns a b c d : Bytes)
    (ha : a.length < 65536) (hc : c.length < 65536)
    (hne : (a, b) ≠ (c, d)) :
    pathKey ns [a, b] ≠ pathKey ns [c, d] ∧
      ∀ (T : Type) (enc : T → Bytes) (dec : Bytes → Option T) (s : Store)
        (v : T),
        mayLoad dec (mapSave enc s ns [a, b] v) (pathKey ns [c, d]) =
          mayLoad dec s (pathKey ns [c, d]) := by
  have hkey : pathKey ns [a, b] ≠ pathKey ns [c, d] := by
    intro h
    have h1 : u16_be ns.length ++ (ns ++ (u16_be a.length ++ (a ++ b))) =
        u16_be ns.length ++ (ns ++ (u16_be c.length ++ (c ++ d))) := by
      simpa [pathKey, encode_segments, List.append_assoc] using h
    have h2 := List.append_cancel_left (List.append_cancel_left h1)
    have h3 := List.append_inj h2 (by simp [u16_be])
    have h5 : a.length = c.length := by
      have h4 := h3.1
      simp only [u16_be, List.cons.injEq, and_true] at h4
      omega
    have h6 := List.append_inj h3.2 h5
    exact hne (by rw [h6.1, h6.2])
  refine ⟨hkey, fun T enc dec s v => ?_⟩
  unfold mayLoad mapSave
  rw [Store.get_set_ne _ _ (Ne.symm hkey)]

/-- Witness for C2 at the specification's example: segments
`("ab", "c")` and `("a", "bc")`, whose naive concatenations coincide. -/
theorem claim_C2_witness :
    ([97, 98] : Bytes).length < 65536 ∧ ([97] : Bytes).length < 65536 ∧
      (([97, 98], [99]) : Bytes × Bytes) ≠ (([97], [98, 99])) ∧
      (pathKey [] [[97, 98], [99]] ≠ pathKey [] [[97], [98, 99]] ∧
        ∀ (T : Type) (enc : T → Bytes) (dec : Bytes → Option T) (s : Store)
          (v : T),
          mayLoad dec (mapSave enc s [] [[97, 98], [99]] v)
            (pathKey [] [[97], [98, 99]]) =
            mayLoad dec s (pathKey [] [[97], [98, 99]])) :=
  ⟨by decide, by decide, by decide,
    claim_C2_composite_key_injective [] [97, 98] [99] [97] [98, 99]
      (by decide) (by decide) (by decide)⟩

/-- C4: `push_back` on a full queue reports `false` and returns the store
it was given, writing nothing; `pop_front` on an empty queue
(`head == tail`) reports nothing and likewise returns the store
unchanged. -/
theorem claim_C4_boundary_noop {T : Type} (enc : T → Bytes)
    (dec : Bytes → Option T) (q : Queue) (s : Store) (v : T) :
    (q.is_full s = true → q.push_back enc s v = (s, false)) ∧
      (q.headPtr s = q.tailPtr s → q.pop_front dec s = .ok (s, none)) := by
  constructor
  · intro h
    have h2 : q.determine_is_full (q.headPtr s) (q.tailPtr s) = true := h
    simp [Queue.push_back, h2]
  · intro h
    simp [Queue.pop_front, h]

/-- Witness for C4: a full queue (capacity-1 queue holding nothing is
already full, since `max_capacity` is the internal capacity minus one)
and an empty queue over a fresh store. -/
theorem claim_C4_witness :
    Queue.is_full ⟨[], 1⟩ emptyStore = true ∧
      Queue.push_back enc0 ⟨[], 1⟩ emptyStore 7 = (emptyStore, false) ∧
      Queue.headPtr ⟨[], 2⟩ emptyStore = Queue.tailPtr ⟨[], 2⟩ emptyStore ∧
      Queue.pop_front dec0 ⟨[], 2⟩ emptyStore = .ok (emptyStore, none) :=
  ⟨by decide,
    (claim_C4_boundary_noop enc0 dec0 ⟨[], 1⟩ emptyStore 7).1 (by decide),
    rfl,
    (claim_C4_boundary_noop enc0 dec0 ⟨[], 2⟩ emptyStore 7).2 rfl⟩

/-- C5: on a non-empty queue (`head ≠ tail`), `pop_front` is exactly:
`may_load` the slot at index `head` (a `ParseError` from the codec
propagates through the `Except` map, before any write), write
`(head + 1) mod capacity` to the head counter, and return the loaded
value. -/
theorem claim_C5_pop_nonempty {T : Type} (dec : Bytes → Option T)
    (q : Queue) (s : Store) (h : q.headPtr s ≠ q.tailPtr s) :
    q.pop_front dec s =
      (mayLoad dec s (q.slotKey (q.headPtr s))).map
        (fun popped =>
          (save_u32 s q.headKey ((q.headPtr s + 1) % q.capacity), popped)) := by
  unfold Queue.pop_front
  rw [if_neg (Ne.symm h)]
  cases hml : mayLoad dec s (q.slotKey (q.headPtr s)) with
  | error e => simp [Except.map]
  | ok popped => simp [Except.map, Queue.inc_head]

/-- Witness for C5: a store whose tail counter reads `1` with head `0`,
so the queue is non-empty. -/
theorem claim_C5_witness :
    Queue.headPtr ⟨[], 3⟩ (save_u32 emptyStore (Queue.tailKey ⟨[], 3⟩) 1) ≠
      Queue.tailPtr ⟨[], 3⟩ (save_u32 emptyStore (Queue.tailKey ⟨[], 3⟩) 1) ∧
      Queue.pop_front dec0 ⟨[], 3⟩
          (save_u32 emptyStore (Queue.tailKey ⟨[], 3⟩) 1) =
        (mayLoad dec0 (save_u32 emptyStore (Queue.tailKey ⟨[], 3⟩) 1)
            (Queue.slotKey ⟨[], 3⟩
              (Queue.headPtr ⟨[], 3⟩
                (save_u32 emptyStore (Queue.tailKey ⟨[], 3⟩) 1)))).map
          (fun popped =>
            (save_u32 (save_u32 emptyStore (Queue.tailKey ⟨[], 3⟩) 1)
              (Queue.headKey ⟨[], 3⟩)
              ((Queue.headPtr ⟨[], 3⟩
                  (save_u32 emptyStore (Queue.tailKey ⟨[], 3⟩) 1) + 1) % 3),
              popped)) :=
  ⟨by decide,
    claim_C5_pop_nonempty dec0 ⟨[], 3⟩
      (save_u32 emptyStore (Queue.tailKey ⟨[], 3⟩) 1) (by decide)⟩

/-- C6: saving a value under a key and loading the same key (the store
otherwise untouched) returns exactly that value, through the codec and
the path derived from the namespace and key segments. -/
theorem claim_C6_roundtrip {T : Type} (enc : T → Bytes)
    (dec : Bytes → Option T) (v : T) (hrt : dec (enc v) = some v)
    (s : Store) (ns : Bytes) (segs : List Bytes) :
    mapLoad dec (mapSave enc s ns segs v) ns segs = .ok v := by
  unfold mapLoad mapSave
  rw [Store.get_set_self]
  simp [hrt]

/-- Witness for C6 at the concrete codec and key `(b"owner", b"spender")`
under namespace `"allow"` from the specification's scenario. -/
theorem claim_C6_witness :
    dec0 (enc0 1234) = some 1234 ∧
      mapLoad dec0
          (mapSave enc0 emptyStore [97, 108, 108, 111, 119]
            [[111, 119, 110, 101, 114], [115, 112, 101, 110, 100, 101, 114]]
            1234)
          [97, 108, 108, 111, 119]
          [[111, 119, 110, 101, 114], [115, 112, 101, 110, 100, 101, 114]] =
        .ok 1234 :=
  ⟨enc0_dec0 1234,
    claim_C6_roundtrip enc0 dec0 1234 (enc0_dec0 1234) emptyStore
      [97, 108, 108, 111, 119]
      [[111, 119, 110, 101, 114], [115, 112, 101, 110, 100, 101, 114]]⟩

/-- C7: every counter value written by `push_back` (via `inc_tail`) or
`pop_front` (via `inc_head`) is reduced modulo the capacity before being
stored, so from any state whose counters lie in `[0, capacity)` both
operations leave them in `[0, capacity)` (capacity bounds as guaranteed
by the `u32` field: positive and at most `u32::MAX`). -/
theorem claim_C7_counters_in_range {T : Type} (enc : T → Bytes)
    (dec : Bytes → Option T) (q : Queue) (s : Store) (v : T)
    (hcap : 0 < q.capacity) (hcap2 : q.capacity ≤ 4294967295)
    (hh : q.headPtr s < q.capacity) (ht : q.tailPtr s < q.capacity) :
    (q.headPtr (q.push_back enc s v).1 < q.capacity ∧
      q.tailPtr (q.push_back enc s v).1 < q.capacity) ∧
      ∀ s2 o, q.pop_front dec s = .ok (s2, o) →
        q.headPtr s2 < q.capacity ∧ q.tailPtr s2 < q.capacity := by
  constructor
  · by_cases hf : q.determine_is_full (q.headPtr s) (q.tailPtr s) = true
    · have hstep : (q.push_back enc s v).1 = s := by
        simp [Queue.push_back, hf]
      rw [hstep]
      exact ⟨hh, ht⟩
    · have hf2 : q.determine_is_full (q.headPtr s) (q.tailPtr s) = false := by
        simpa using hf
      have hstep : (q.push_back enc s v).1 =
          (s.set (q.slotKey (q.tailPtr s)) (enc v)).set q.tailKey
            (u32_be ((q.tailPtr s + 1) % q.capacity)) := by
        simp [Queue.push_back, hf2, Queue.inc_tail, save_u32, mapSave,
          Queue.slotKey]
      rw [hstep]
      constructor
      · show load_u32 ((s.set (q.slotKey (q.tailPtr s)) (enc v)).set q.tailKey
          (u32_be ((q.tailPtr s + 1) % q.capacity))) q.headKey < q.capacity
        rw [load_u32_set_ne _ _ q.headKey_ne_tailKey,
          load_u32_set_ne _ _ (Ne.symm (q.slotKey_ne_headKey _))]
        exact hh
      · show load_u32 ((s.set (q.slotKey (q.tailPtr s)) (enc v)).set q.tailKey
          (u32_be ((q.tailPtr s + 1) % q.capacity))) q.tailKey < q.capacity
        have hx : (q.tailPtr s + 1) % q.capacity < q.capacity :=
          Nat.mod_lt _ hcap
        have h2 : load_u32 ((s.set (q.slotKey (q.tailPtr s)) (enc v)).set
            q.tailKey (u32_be ((q.tailPtr s + 1) % q.capacity))) q.tailKey =
            (q.tailPtr s + 1) % q.capacity :=
          load_u32_save _ _ _ (by omega)
        rw [h2]
        exact hx
  · intro s2 o he
    by_cases hte : q.tailPtr s = q.headPtr s
    · have hstep : q.pop_front dec s = .ok (s, none) := by
        simp [Queue.pop_front, hte]
      rw [hstep] at he
      obtain ⟨h1, h2⟩ : s = s2 ∧ (none : Option T) = o := by simpa using he
      subst h1
      exact ⟨hh, ht⟩
    · cases hml : mayLoad dec s (q.slotKey (q.headPtr s)) with
      | error e =>
        have hstep : q.pop_front dec s = .error e := by
          simp [Queue.pop_front, hte, hml]
        rw [hstep] at he
        simp at he
      | ok popped =>
        have hstep : q.pop_front dec s =
            .ok (save_u32 s q.headKey ((q.headPtr s + 1) % q.capacity),
              popped) := by
          simp [Queue.pop_front, hte, hml, Queue.inc_head]
        rw [hstep] at he
        obtain ⟨h1, h2⟩ :
            save_u32 s q.headKey ((q.headPtr s + 1) % q.capacity) = s2 ∧
              popped = o := by simpa using he
        subst h1
        have hx : (q.headPtr s + 1) % q.capacity < q.capacity :=
          Nat.mod_lt _ hcap
        constructor
        · show load_u32 (save_u32 s q.headKey
            ((q.headPtr s + 1) % q.capacity)) q.headKey < q.capacity
          rw [load_u32_save _ _ _ (by omega)]
          exact hx
        · show load_u32 (save_u32 s q.headKey
            ((q.headPtr s + 1) % q.capacity)) q.tailKey < q.capacity
          rw [show save_u32 s q.headKey ((q.headPtr s + 1) % q.capacity) =
            s.set q.headKey (u32_be ((q.headPtr s + 1) % q.capacity)) from rfl]
          rw [load_u32_set_ne _ _ (Ne.symm q.headKey_ne_tailKey)]
          exact ht

/-- Witness for C7: the queue of requested capacity 1 (internal capacity
2) over a fresh store at a concrete element. -/
theorem claim_C7_witness :
    0 < Queue.capacity ⟨[], 2⟩ ∧ Queue.capacity ⟨[], 2⟩ ≤ 4294967295 ∧
      Queue.headPtr ⟨[], 2⟩ emptyStore < Queue.capacity ⟨[], 2⟩ ∧
      Queue.tailPtr ⟨[], 2⟩ emptyStore < Queue.capacity ⟨[], 2⟩ ∧
      ((Queue.headPtr ⟨[], 2⟩
          (Queue.push_back enc0 ⟨[], 2⟩ emptyStore 1).1 <
            Queue.capacity ⟨[], 2⟩ ∧
        Queue.tailPtr ⟨[], 2⟩
          (Queue.push_back enc0 ⟨[], 2⟩ emptyStore 1).1 <
            Queue.capacity ⟨[], 2⟩) ∧
        ∀ s2 o, Queue.pop_front dec0 ⟨[], 2⟩ emptyStore = .ok (s2, o) →
          Queue.headPtr ⟨[], 2⟩ s2 < Queue.capacity ⟨[], 2⟩ ∧
            Queue.tailPtr ⟨[], 2⟩ s2 < Queue.capacity ⟨[], 2⟩) :=
  ⟨by decide, by decide, by decide, by decide,
    claim_C7_counters_in_range enc0 dec0 ⟨[], 2⟩ emptyStore 1 (by decide)
      (by decide) (by decide) (by decide)⟩

/-- C10: a counter key holding no bytes, or bytes not exactly 4 long,
reads as zero through `load_u32`; hence a queue over a never-written
store needs no initialization — its counters (at the raw, un-prefixed
keys `namespace ++ "_head"` / `namespace ++ "_tail"`) read 0, its `len`
is 0, it is not full, and `pop_front` returns nothing without mutating
the store. -/
theorem claim_C10_default_counters {T : Type} (dec : Bytes → Option T)
    (s : Store) (k : Bytes)
    (hk : s.get k = none ∨ ∃ b, s.get k = some b ∧ b.length ≠ 4)
    (ns : Bytes) (c : Nat) (q : Queue)
    (hq : Queue.with_capacity ns c = some q) :
    load_u32 s k = 0 ∧
      q.headPtr emptyStore = 0 ∧ q.tailPtr emptyStore = 0 ∧
      q.len emptyStore = 0 ∧ q.is_full emptyStore = false ∧
      q.pop_front dec emptyStore = .ok (emptyStore, none) := by
  have hload : load_u32 s k = 0 := by
    rcases hk with h | ⟨b, hb, hlen⟩
    · simp [load_u32, h]
    · simp [load_u32, hb, hlen]
  have hcq : c ≠ 0 ∧ q = ⟨ns, c + 1⟩ := by
    unfold Queue.with_capacity at hq
    by_cases h0 : c = 0
    · rw [if_pos h0] at hq
      simp at hq
    · refine ⟨h0, ?_⟩
      rw [if_neg h0] at hq
      by_cases h1 : c = U32MAX
      · rw [if_pos h1] at hq
        simp at hq
      · rw [if_neg h1] at hq
        exact (Option.some.injEq _ _).mp hq.symm
  obtain ⟨hc0, hq2⟩ := hcq
  subst hq2
  have hh : Queue.headPtr ⟨ns, c + 1⟩ emptyStore = 0 := rfl
  have ht : Queue.tailPtr ⟨ns, c + 1⟩ emptyStore = 0 := rfl
  refine ⟨hload, hh, ht, ?_, ?_, ?_⟩
  · unfold Queue.len
    rw [hh, ht]
    simp [Queue.determine_len]
  · unfold Queue.is_full Queue.determine_is_full
    rw [hh, ht]
    simp only [Queue.determine_len, Queue.max_capacity, Nat.dist,
      decide_eq_false_iff_not]
    show ¬ (if 0 ≤ 0 then 0 - 0 + (0 - 0) else c + 1 - 0 + 0) = c + 1 - 1
    simp only [if_pos (Nat.le_refl 0)]
    omega
  · simp [Queue.pop_front, hh, ht]

/-- Witness for C10: a store holding 3 bytes at key `[7]` (length ≠ 4),
and the queue of requested capacity 1 over a fresh store. -/
theorem claim_C10_witness :
    ((emptyStore.set [7] [1, 2, 3]).get [7] = none ∨
        ∃ b, (emptyStore.set [7] [1, 2, 3]).get [7] = some b ∧
          b.length ≠ 4) ∧
      Queue.with_capacity [] 1 = some ⟨[], 2⟩ ∧
      (load_u32 (emptyStore.set [7] [1, 2, 3]) [7] = 0 ∧
        Queue.headPtr ⟨[], 2⟩ emptyStore = 0 ∧
        Queue.tailPtr ⟨[], 2⟩ emptyStore = 0 ∧
        Queue.len ⟨[], 2⟩ emptyStore = 0 ∧
        Queue.is_full ⟨[], 2⟩ emptyStore = false ∧
        Queue.pop_front dec0 ⟨[], 2⟩ emptyStore = .ok (emptyStore, none)) :=
  ⟨Or.inr ⟨[1, 2, 3], rfl, by decide⟩, rfl,
    claim_C10_default_counters dec0 (emptyStore.set [7] [1, 2, 3]) [7]
      (Or.inr ⟨[1, 2, 3], rfl, by decide⟩) [] 1 ⟨[], 2⟩ rfl⟩

end SecretStorage
